import Mathlib

/-!
# Verification of the one-less-board cutting-stock optimizer

Shallow embedding of the core engine of the `one-less-board` repository:

* `src/lib/cuts.ts` — the requirement normalizer (`mergeCuts` and its
  validity helpers);
* the board optimizer module (`optimizeBoardCuts` and its helpers:
  `classifyRemaining`, `toOptimizedBoard`, `placeCutsOntoBoards`,
  `placeCutsOntoNewBoards`, `MIN_SCRAP_LENGTH_INCHES`).

Modelling conventions, chosen once for the whole file:

* JavaScript `number` lengths are modelled as `ℚ` (exact arithmetic; the
  spec's 1e-6 rounding exists "to suppress floating-point noise", and every
  constant appearing in the code and spec — `0.125`, `12`, `1e-6`,
  `11.999999` — is an exact rational).  In `ℚ` the guard
  `Number.isFinite x` is always true, so it disappears from validity checks.
* JavaScript quantities are modelled as `ℤ`; the guard
  `Number.isInteger q` is always true in this model and disappears, while
  `q > 0` remains.
* The insertion-ordered `Map` used by the mergers is modelled as an
  association list that updates in place and appends new keys at the end,
  exactly the observable behaviour of `Map` + `[...map.values()]`.
* JavaScript `Array.prototype.sort` (stable, comparator `cmp`) is modelled
  as a stable insertion sort with respect to the relation
  `cmp a b ≤ 0`; for the comparators used here that relation is total,
  transitive and antisymmetric, so the sorted result is unique and the
  stable insertion sort produces exactly what the JS engine produces.
* The best-fit loop of the solver keeps a reference `bestBoard` and the
  score `bestRemainingAfter` (initially `Infinity`); we keep the *index* of
  the best board instead of a reference and represent the initial
  `Infinity` score by `none`, so `bestBoard.cuts.push(cut)` becomes an
  update at that index (`pushCutAt`).
* `optimizeBoardCuts` ignores the `id`/`name`/`materialType` fields of
  `BoardSpec` and the `nominalSizeId` field of scrap entries is only
  checked by `mergeScrapBoards` (not modelled here, no claim touches it);
  `BoardSpec` is embedded with the two fields the solver reads.
-/

namespace OneLessBoard

/-! ## Data model -/

/-- Embeds `MaterialType` from `stock-profiles.ts`: `"board" | "sheet"`. -/
inductive MaterialType where
  | board
  | sheet
deriving DecidableEq, Repr

/-- Embeds `CutRequirement` from `cuts.ts`: length, quantity, optional material
type (defaults to `"board"` when omitted). -/
structure CutRequirement where
  length : ℚ
  quantity : ℤ
  materialType : Option MaterialType := none
deriving DecidableEq, Repr

/-- Embeds `DEFAULT_MATERIAL_TYPE` from `cuts.ts`. -/
def DEFAULT_MATERIAL_TYPE : MaterialType := .board

/-- Embeds `isValidLength` from `cuts.ts`: finite number `> 0` (finiteness is
automatic in `ℚ`). -/
def isValidLength (value : ℚ) : Bool := decide (0 < value)

/-- Embeds `isValidQuantity` from `cuts.ts`: finite integer `> 0` (finiteness and
integrality are automatic for `ℤ`). -/
def isValidQuantity (value : ℤ) : Bool := decide (0 < value)

/-- An entry of the grouping `Map` inside `mergeCuts`: the `materialType`
has already been defaulted to a concrete value. -/
structure MergedEntry where
  length : ℚ
  quantity : ℤ
  materialType : MaterialType
deriving DecidableEq, Repr

/-- One `byKey.set`/update of `mergeCuts`'s `Map`, keyed by
`(length, materialType)`: bump the quantity of an existing entry in place,
or append a fresh entry at the end (insertion order). -/
def upsertCut (len : ℚ) (mt : MaterialType) (qty : ℤ) :
    List MergedEntry → List MergedEntry
  | [] => [⟨len, qty, mt⟩]
  | e :: rest =>
      if e.length = len ∧ e.materialType = mt then
        ⟨e.length, e.quantity + qty, e.materialType⟩ :: rest
      else
        e :: upsertCut len mt qty rest

/-- The grouping loop of `mergeCuts`: drop invalid entries, group the rest
by `(length, materialType ?? DEFAULT_MATERIAL_TYPE)` summing quantities. -/
def mergeGroups : List CutRequirement → List MergedEntry → List MergedEntry
  | [], acc => acc
  | c :: rest, acc =>
      if isValidLength c.length && isValidQuantity c.quantity then
        mergeGroups rest
          (upsertCut c.length (c.materialType.getD DEFAULT_MATERIAL_TYPE) c.quantity acc)
      else
        mergeGroups rest acc

/-- Stable insertion (descending by `length`) modelling the stable JS sort
with comparator `(a, b) => b.length - a.length`: an earlier element `c`
stays before a later element `x` unless `c.length < x.length`. -/
def insertByLengthDesc (c : MergedEntry) : List MergedEntry → List MergedEntry
  | [] => [c]
  | x :: xs => if c.length < x.length then x :: insertByLengthDesc c xs else c :: x :: xs

/-- Embeds `[...byKey.values()].sort((a, b) => b.length - a.length)` as a stable
insertion sort. -/
def sortByLengthDesc (l : List MergedEntry) : List MergedEntry :=
  l.foldr insertByLengthDesc []

/-- Embeds `mergeCuts` from `cuts.ts`: validate, group by `(length, materialType)`
summing quantities, sort by length descending, and re-emit plain
requirement records (with the defaulted material type made explicit). -/
def mergeCuts (cuts : List CutRequirement) : List CutRequirement :=
  (sortByLengthDesc (mergeGroups cuts [])).map
    (fun e => ⟨e.length, e.quantity, some e.materialType⟩)

/-! ## Optimizer data model -/

/-- Embeds `RequiredCut` from the optimizer module. -/
structure RequiredCut where
  length : ℚ
  quantity : ℤ
deriving DecidableEq, Repr

/-- Embeds `ScrapBoard` from the optimizer module.  `nominalSizeId` is never read
by `optimizeBoardCuts`. -/
structure ScrapBoard where
  nominalSizeId : String := ""
  stockLength : ℚ
  quantity : ℤ
deriving DecidableEq, Repr

/-- The two fields of `BoardSpec` that `optimizeBoardCuts` reads. -/
structure BoardSpec where
  allowedLengths : List ℚ
  kerf : ℚ
deriving DecidableEq, Repr

/-- The board source tag of an output board: `"scrap" | "new"`. -/
inductive Source where
  | scrap
  | new
deriving DecidableEq, Repr

/-- Embeds `OptimizedBoard`, the output record of the optimizer. -/
structure OptimizedBoard where
  stockLength : ℚ
  cuts : List ℚ
  remainingWaste : ℚ
  scrapRemaining : ℚ
  wasteRemaining : ℚ
  source : Source
deriving DecidableEq, Repr

/-- The `options` argument of `optimizeBoardCuts`
(`{ scrap?, preferredMaxLengthInches? }`). -/
structure OptimizeCutsOptions where
  scrap : Option (List ScrapBoard) := none
  preferredMaxLengthInches : Option ℚ := none
deriving DecidableEq, Repr

/-- Embeds `MIN_SCRAP_LENGTH_INCHES = 12`. -/
def MIN_SCRAP_LENGTH_INCHES : ℚ := 12

/-- JavaScript `Math.round`: round half toward positive infinity. -/
def jsRound (x : ℚ) : ℤ := Int.floor (x + 1 / 2)

/-- Embeds `Math.round(x * 1e6) / 1e6`, the 1e-6 rounding used by
`classifyRemaining`. -/
def round1e6 (x : ℚ) : ℚ := (jsRound (x * 1000000) : ℚ) / 1000000

/-- Embeds `classifyRemaining` from the optimizer module: floor the remaining
length at zero, round to 1e-6, and classify it entirely as scrap
(`≥ MIN_SCRAP_LENGTH_INCHES`) or entirely as waste.  The pair is
`(scrapRemaining, wasteRemaining)`. -/
def classifyRemaining (remainingWaste : ℚ) : ℚ × ℚ :=
  let r := max 0 (round1e6 remainingWaste)
  if MIN_SCRAP_LENGTH_INCHES ≤ r then (r, 0) else (0, r)

/-- A solver-internal board: the `{ stockLength, cuts }` records both
placement phases work on. -/
structure WorkingBoard where
  stockLength : ℚ
  cuts : List ℚ
deriving DecidableEq, Repr

/-- The `usedLength` helper shared by both placement phases and
`toOptimizedBoard`: `0` for an empty board, otherwise
`sum(cuts) + (len(cuts) - 1) * kerf`. -/
def usedLength (kerfInches : ℚ) (cuts : List ℚ) : ℚ :=
  if cuts = [] then 0 else cuts.sum + ((cuts.length - 1 : ℕ) : ℚ) * kerfInches

/-- The `remaining` helper: free length still available on a board. -/
def remLength (kerfInches : ℚ) (board : WorkingBoard) : ℚ :=
  board.stockLength - usedLength kerfInches board.cuts

/-- The `canFit` helper: a board accepts a cut iff
`remaining ≥ cut + (kerf if the board is non-empty else 0)`. -/
def canFit (kerfInches : ℚ) (board : WorkingBoard) (cut : ℚ) : Bool :=
  let needKerf := if 0 < board.cuts.length then kerfInches else 0
  decide (cut + needKerf ≤ remLength kerfInches board)

/-- The best-fit scanning loop shared by both placement phases: walk the
boards left to right keeping the (index of the) first board that attains
the strictly smallest `remaining - cut` among the boards that `canFit` the
cut; `none` plays the role of the initial `bestRemainingAfter = Infinity`.
`i` is the index of the head of the remaining list. -/
def bestFitGo (kerfInches cut : ℚ) :
    List WorkingBoard → ℕ → Option (ℕ × ℚ) → Option (ℕ × ℚ)
  | [], _, best => best
  | board :: rest, i, best =>
      if canFit kerfInches board cut then
        let remAfter := remLength kerfInches board - cut
        match best with
        | none => bestFitGo kerfInches cut rest (i + 1) (some (i, remAfter))
        | some (bi, bestRem) =>
            if remAfter < bestRem then
              bestFitGo kerfInches cut rest (i + 1) (some (i, remAfter))
            else
              bestFitGo kerfInches cut rest (i + 1) (some (bi, bestRem))
      else
        bestFitGo kerfInches cut rest (i + 1) best

/-- The whole best-fit scan: index and leftover score of the chosen board,
or `none` when no board fits. -/
def bestFit (kerfInches : ℚ) (boards : List WorkingBoard) (cut : ℚ) :
    Option (ℕ × ℚ) :=
  bestFitGo kerfInches cut boards 0 none

/-- Embeds `bestBoard.cuts.push(cut)`: append `cut` to the cut list of the board
at index `i`. -/
def pushCutAt : List WorkingBoard → ℕ → ℚ → List WorkingBoard
  | [], _, _ => []
  | board :: rest, 0, cut => { board with cuts := board.cuts ++ [cut] } :: rest
  | board :: rest, i + 1, cut => board :: pushCutAt rest i cut

/-- One iteration of the Phase-1 loop body of `placeCutsOntoBoards`: place
the cut on the best-fitting board, or record it as unassigned. -/
def placeCutsStep (kerfInches : ℚ) (st : List WorkingBoard × List ℚ) (cut : ℚ) :
    List WorkingBoard × List ℚ :=
  match bestFit kerfInches st.1 cut with
  | some (i, _) => (pushCutAt st.1 i cut, st.2)
  | none => (st.1, st.2 ++ [cut])

/-- Embeds `placeCutsOntoBoards`: best-fit every cut onto the fixed board pool
(the JS code first copies the pool; copying is implicit here), then keep
only the boards that received at least one cut. -/
def placeCutsOntoBoards (sortedCuts : List ℚ) (boardPool : List WorkingBoard)
    (kerfInches : ℚ) : List WorkingBoard × List ℚ :=
  let st := sortedCuts.foldl (placeCutsStep kerfInches) (boardPool, [])
  (st.1.filter (fun b => !b.cuts.isEmpty), st.2)

/-- The preference tier of the Phase-2 stock comparator:
`a <= (preferredMaxLengthInches ?? Infinity) ? 0 : 1`. -/
def stockTier (preferred : Option ℚ) (x : ℚ) : ℕ :=
  match preferred with
  | none => 0
  | some p => if x ≤ p then 0 else 1

/-- Relation `stockLe preferred a b` holds iff the Phase-2 comparator
`(a, b) => aPrefer - bPrefer` (then `a - b`) returns a value `≤ 0`, i.e.
iff a stable sort may keep `a` before `b`. -/
def stockLe (preferred : Option ℚ) (a b : ℚ) : Bool :=
  decide (stockTier preferred a < stockTier preferred b ∨
    (stockTier preferred a = stockTier preferred b ∧ a ≤ b))

/-- Stable insertion for the Phase-2 stock sort. -/
def insertStock (preferred : Option ℚ) (c : ℚ) : List ℚ → List ℚ
  | [] => [c]
  | x :: xs => if stockLe preferred c x then c :: x :: xs else x :: insertStock preferred c xs

/-- Embeds `[...allowedLengths].sort(comparator)` of `placeCutsOntoNewBoards`:
lengths within the preference tier first, each tier ascending. -/
def sortStock (preferred : Option ℚ) (l : List ℚ) : List ℚ :=
  l.foldr (insertStock preferred) []

/-- Embeds `Math.min(...allowedLengths)`.  `Math.min()` of an empty spread is
`Infinity`; the empty case is unreachable behind the
`allowedLengths.length === 0` guard, and `0` is a junk value. -/
def minStockOf : List ℚ → ℚ
  | [] => 0
  | x :: xs => xs.foldl min x

/-- One iteration of the Phase-2 loop body of `placeCutsOntoNewBoards`:
skip cuts longer than the smallest catalog length, best-fit onto an
already-opened new board, else open the first stock in `sortedStock` that
is `≥ cut` (`shortestStockThatFits`) with the cut as its first item. -/
def placeNewStep (kerfInches minStock : ℚ) (sortedStock : List ℚ)
    (boards : List WorkingBoard) (cut : ℚ) : List WorkingBoard :=
  if minStock < cut then boards
  else
    match bestFit kerfInches boards cut with
    | some (i, _) => pushCutAt boards i cut
    | none =>
        match sortedStock.find? (fun stock => decide (cut ≤ stock)) with
        | some stockLength => boards ++ [⟨stockLength, [cut]⟩]
        | none => boards

/-- Embeds `placeCutsOntoNewBoards`. -/
def placeCutsOntoNewBoards (sortedCuts allowedLengths : List ℚ)
    (kerfInches : ℚ) (preferredMaxLengthInches : Option ℚ) : List WorkingBoard :=
  if allowedLengths = [] ∨ sortedCuts = [] then []
  else
    sortedCuts.foldl
      (placeNewStep kerfInches (minStockOf allowedLengths)
        (sortStock preferredMaxLengthInches allowedLengths))
      []

/-- The requirement-expansion loop of `optimizeBoardCuts`: drop invalid
requirements, emit `quantity` copies of each remaining length. -/
def cutsListOf : List RequiredCut → List ℚ
  | [] => []
  | c :: rest =>
      if 0 < c.length ∧ 0 < c.quantity then
        List.replicate c.quantity.toNat c.length ++ cutsListOf rest
      else
        cutsListOf rest

/-- Stable insertion (descending) modelling
`[...cutsList].sort((a, b) => b - a)`. -/
def insertDesc (c : ℚ) : List ℚ → List ℚ
  | [] => [c]
  | x :: xs => if c < x then x :: insertDesc c xs else c :: x :: xs

/-- Embeds `[...cutsList].sort((a, b) => b - a)`. -/
def sortDesc (l : List ℚ) : List ℚ := l.foldr insertDesc []

/-- The scrap-expansion loop of `optimizeBoardCuts`: drop invalid scrap
entries, emit `quantity` empty working boards per remaining entry. -/
def scrapPoolOf : List ScrapBoard → List WorkingBoard
  | [] => []
  | s :: rest =>
      if 0 < s.stockLength ∧ 0 < s.quantity then
        List.replicate s.quantity.toNat ⟨s.stockLength, []⟩ ++ scrapPoolOf rest
      else
        scrapPoolOf rest

/-- Embeds `toOptimizedBoard`: freeze a working board into an output record,
flooring the leftover at zero and classifying it. -/
def toOptimizedBoard (board : WorkingBoard) (source : Source)
    (kerfInches : ℚ) : OptimizedBoard :=
  let used := usedLength kerfInches board.cuts
  let remainingWaste := max 0 (board.stockLength - used)
  let c := classifyRemaining remainingWaste
  { stockLength := board.stockLength
    cuts := board.cuts
    remainingWaste := remainingWaste
    scrapRemaining := c.1
    wasteRemaining := c.2
    source := source }

/-- Embeds `optimizeBoardCuts`: the two-phase scrap-first greedy solver. -/
def optimizeBoardCuts (requiredCuts : List RequiredCut) (spec : BoardSpec)
    (options : Option OptimizeCutsOptions) : List OptimizedBoard :=
  if spec.allowedLengths = [] ∨ spec.kerf < 0 then []
  else
    let cutsList := cutsListOf requiredCuts
    if cutsList = [] then []
    else
      let sortedCuts := sortDesc cutsList
      let scrapPool := scrapPoolOf ((options.bind (fun o => o.scrap)).getD [])
      let phase1 := placeCutsOntoBoards sortedCuts scrapPool spec.kerf
      let newBoards := placeCutsOntoNewBoards phase1.2 spec.allowedLengths spec.kerf
        (options.bind (fun o => o.preferredMaxLengthInches))
      phase1.1.map (fun b => toOptimizedBoard b .scrap spec.kerf) ++
        newBoards.map (fun b => toOptimizedBoard b .new spec.kerf)

/-- Formalization of the hypothesis of the scrap-first claim (not a source
function): an assignment of the cut multiset onto the expanded scrap pool
in which every pool board satisfies
`sum(assigned) + kerf * (count - 1) ≤ stockLength`. -/
def ScrapCanHold (kerfInches : ℚ) (pool : List WorkingBoard) (cuts : List ℚ) : Prop :=
  ∃ asg : List (List ℚ),
    asg.length = pool.length ∧ asg.flatten.Perm cuts ∧
    ∀ p ∈ pool.zip asg, usedLength kerfInches p.2 ≤ p.1.stockLength

/-! ## Basic lemmas about the geometry helpers -/

theorem usedLength_nil (kerfInches : ℚ) : usedLength kerfInches [] = 0 := rfl

theorem usedLength_singleton (kerfInches c : ℚ) :
    usedLength kerfInches [c] = c := by
  simp [usedLength]

theorem usedLength_append_single (kerfInches c : ℚ) {cuts : List ℚ}
    (h : cuts ≠ []) :
    usedLength kerfInches (cuts ++ [c]) = usedLength kerfInches cuts + c + kerfInches := by
  obtain ⟨n, hn⟩ : ∃ n, cuts.length = n + 1 := by
    cases cuts with
    | nil => exact absurd rfl h
    | cons x xs => exact ⟨xs.length, rfl⟩
  simp only [usedLength, if_neg h, if_neg (by simp : ¬(cuts ++ [c] = []))]
  rw [List.sum_append, List.length_append, hn]
  simp only [List.sum_cons, List.sum_nil, List.length_singleton]
  have : (n + 1 + 1 - 1 : ℕ) = (n + 1 - 1) + 1 := by omega
  rw [this]
  push_cast
  ring

/-- Helper: `usedLength` agrees with the spec's `sum(cuts) + kerf * max(0, len - 1)`. -/
theorem usedLength_eq_max (kerfInches : ℚ) (cuts : List ℚ) :
    usedLength kerfInches cuts =
      cuts.sum + kerfInches * max 0 ((cuts.length : ℚ) - 1) := by
  cases cuts with
  | nil => simp [usedLength]
  | cons x xs =>
      have h1 : max (0 : ℚ) ((x :: xs).length - 1) = ((x :: xs).length : ℚ) - 1 := by
        rw [max_eq_right]
        simp only [List.length_cons]
        push_cast
        linarith
      have h2 : (((x :: xs).length - 1 : ℕ) : ℚ) = ((x :: xs).length : ℚ) - 1 := by
        simp only [List.length_cons]
        push_cast
        ring
      simp only [usedLength, if_neg (by simp : ¬(x :: xs = [])), h1, h2]
      ring

/-- A board that accepts a cut stays geometrically feasible after the cut
is appended; feasibility of the result needs nothing about the board's
previous state beyond `canFit`. -/
theorem feas_of_canFit {kerfInches : ℚ} {board : WorkingBoard} {cut : ℚ}
    (h : canFit kerfInches board cut = true) :
    usedLength kerfInches (board.cuts ++ [cut]) ≤ board.stockLength := by
  simp only [canFit, remLength, decide_eq_true_eq] at h
  by_cases hc : board.cuts = []
  · have h' : cut ≤ board.stockLength := by
      rw [hc] at h
      simpa [usedLength] using h
    rw [hc, List.nil_append, usedLength_singleton]
    exact h'
  · have hlen : 0 < board.cuts.length := List.length_pos.mpr hc
    rw [if_pos hlen] at h
    rw [usedLength_append_single kerfInches cut hc]
    linarith

/-! ## The best-fit scan -/

/-- Any index produced by the best-fit scan points at a board of the
original pool that accepts the cut.  `pre` is the already-scanned prefix,
`best` the running champion. -/
theorem bestFitGo_canFit (kerfInches cut : ℚ) (L : List WorkingBoard) :
    ∀ (bs pre : List WorkingBoard) (best : Option (ℕ × ℚ)),
      L = pre ++ bs →
      (∀ j r, best = some (j, r) →
        ∃ b, L[j]? = some b ∧ canFit kerfInches b cut = true) →
      ∀ j r, bestFitGo kerfInches cut bs pre.length best = some (j, r) →
      ∃ b, L[j]? = some b ∧ canFit kerfInches b cut = true := by
  intro bs
  induction bs with
  | nil =>
      intro pre best _ hbest j r hres
      exact hbest j r hres
  | cons board rest ih =>
      intro pre best hL hbest j r hres
      have hhead : L[pre.length]? = some board := by
        subst hL
        rw [List.getElem?_append_right (le_refl pre.length)]
        simp
      have hL' : L = (pre ++ [board]) ++ rest := by
        rw [hL, List.append_assoc]
        rfl
      have hstep : ∀ best' : Option (ℕ × ℚ),
          (∀ j' r', best' = some (j', r') →
            ∃ b, L[j']? = some b ∧ canFit kerfInches b cut = true) →
          bestFitGo kerfInches cut rest (pre.length + 1) best' = some (j, r) →
          ∃ b, L[j]? = some b ∧ canFit kerfInches b cut = true := by
        intro best' h1 h2
        refine ih (pre ++ [board]) best' hL' h1 j r ?_
        simp only [List.length_append, List.length_singleton]
        exact h2
      have hchamp : canFit kerfInches board cut = true → ∀ j' r',
          (some (pre.length, remLength kerfInches board - cut) :
            Option (ℕ × ℚ)) = some (j', r') →
          ∃ b, L[j']? = some b ∧ canFit kerfInches b cut = true := by
        intro hf j' r' hjr'
        cases hjr'
        exact ⟨board, hhead, hf⟩
      by_cases hfit : canFit kerfInches board cut = true
      · cases best with
        | none =>
            simp only [bestFitGo, hfit, if_true] at hres
            exact hstep _ (hchamp hfit) hres
        | some p =>
            obtain ⟨bi, bestRem⟩ := p
            simp only [bestFitGo, hfit, if_true] at hres
            by_cases hcmp : remLength kerfInches board - cut < bestRem
            · rw [if_pos hcmp] at hres
              exact hstep _ (hchamp hfit) hres
            · rw [if_neg hcmp] at hres
              exact hstep _ hbest hres
      · simp only [bestFitGo, hfit] at hres
        simp only [Bool.false_eq_true, if_false] at hres
        exact hstep _ hbest hres

/-- The chosen best-fit board exists in the pool and accepts the cut. -/
theorem bestFit_canFit {kerfInches cut : ℚ} {boards : List WorkingBoard}
    {i : ℕ} {r : ℚ} (h : bestFit kerfInches boards cut = some (i, r)) :
    ∃ b, boards[i]? = some b ∧ canFit kerfInches b cut = true := by
  refine bestFitGo_canFit kerfInches cut boards boards [] none rfl ?_ i r h
  intro j r' hjr'
  cases hjr'

/-! ## Updating a board in the pool -/

/-- Every board of `pushCutAt boards i cut` is either an untouched board of
`boards` or the board at index `i` with `cut` appended. -/
theorem mem_pushCutAt {boards : List WorkingBoard} {i : ℕ} {cut : ℚ}
    {b : WorkingBoard} (h : b ∈ pushCutAt boards i cut) :
    b ∈ boards ∨ ∃ b₀, boards[i]? = some b₀ ∧
      b = { b₀ with cuts := b₀.cuts ++ [cut] } := by
  induction boards generalizing i with
  | nil => cases h
  | cons board rest ih =>
      cases i with
      | zero =>
          simp only [pushCutAt] at h
          rcases List.mem_cons.mp h with h1 | h1
          · exact Or.inr ⟨board, by simp, h1⟩
          · exact Or.inl (List.mem_cons_of_mem _ h1)
      | succ i' =>
          simp only [pushCutAt] at h
          rcases List.mem_cons.mp h with h1 | h1
          · exact Or.inl (h1 ▸ List.mem_cons_self _ _)
          · rcases ih h1 with h2 | ⟨b₀, hb₀, hb⟩
            · exact Or.inl (List.mem_cons_of_mem _ h2)
            · exact Or.inr ⟨b₀, by simpa using hb₀, hb⟩

/-! ## Invariants of the placement folds -/

theorem foldl_preserve {α β : Type} (P : α → Prop) (f : α → β → α)
    (l : List β) (a : α) (h0 : P a) (hstep : ∀ x y, P x → P (f x y)) :
    P (l.foldl f a) := by
  induction l generalizing a with
  | nil => exact h0
  | cons y ys ih => exact ih _ (hstep a y h0)

/-- One Phase-1 step keeps every board geometrically feasible. -/
theorem placeCutsStep_feas {kerfInches : ℚ} {st : List WorkingBoard × List ℚ}
    {cut : ℚ}
    (h : ∀ b ∈ st.1, usedLength kerfInches b.cuts ≤ b.stockLength) :
    ∀ b ∈ (placeCutsStep kerfInches st cut).1,
      usedLength kerfInches b.cuts ≤ b.stockLength := by
  unfold placeCutsStep
  cases hbf : bestFit kerfInches st.1 cut with
  | none => exact h
  | some p =>
      obtain ⟨i, r⟩ := p
      intro b hb
      rcases mem_pushCutAt hb with hmem | ⟨b₀, hb₀, rfl⟩
      · exact h b hmem
      · obtain ⟨b₁, hb₁, hfit⟩ := bestFit_canFit hbf
        rw [hb₀] at hb₁
        cases hb₁
        exact feas_of_canFit hfit

/-- Every board of the Phase-1 fold state is feasible, provided the pool
started feasible. -/
theorem phase1_fold_feas {kerfInches : ℚ} {pool : List WorkingBoard}
    (sortedCuts : List ℚ)
    (h : ∀ b ∈ pool, usedLength kerfInches b.cuts ≤ b.stockLength) :
    ∀ b ∈ (sortedCuts.foldl (placeCutsStep kerfInches) (pool, [])).1,
      usedLength kerfInches b.cuts ≤ b.stockLength := by
  exact foldl_preserve
    (fun st => ∀ b ∈ st.1, usedLength kerfInches b.cuts ≤ b.stockLength)
    (placeCutsStep kerfInches) sortedCuts (pool, []) h
    (fun _ cut hx => placeCutsStep_feas hx)

/-- Boards kept by Phase 1 are feasible. -/
theorem placeCutsOntoBoards_feas {kerfInches : ℚ} {pool : List WorkingBoard}
    {sortedCuts : List ℚ}
    (h : ∀ b ∈ pool, usedLength kerfInches b.cuts ≤ b.stockLength) :
    ∀ b ∈ (placeCutsOntoBoards sortedCuts pool kerfInches).1,
      usedLength kerfInches b.cuts ≤ b.stockLength := by
  intro b hb
  unfold placeCutsOntoBoards at hb
  exact phase1_fold_feas sortedCuts h b (List.mem_of_mem_filter hb)

/-- Boards kept by Phase 1 hold at least one cut. -/
theorem placeCutsOntoBoards_nonempty {kerfInches : ℚ}
    {pool : List WorkingBoard} {sortedCuts : List ℚ} :
    ∀ b ∈ (placeCutsOntoBoards sortedCuts pool kerfInches).1, b.cuts ≠ [] := by
  intro b hb
  unfold placeCutsOntoBoards at hb
  have := List.of_mem_filter hb
  simpa [List.isEmpty_iff] using this

/-- The running invariant of the Phase-2 fold: every opened board is
feasible, non-empty, and only holds cuts no longer than the smallest
catalog length. -/
def Phase2Inv (kerfInches minStock : ℚ) (boards : List WorkingBoard) : Prop :=
  ∀ b ∈ boards,
    usedLength kerfInches b.cuts ≤ b.stockLength ∧ b.cuts ≠ [] ∧
      ∀ c ∈ b.cuts, c ≤ minStock

/-- One Phase-2 step preserves the invariant. -/
theorem placeNewStep_inv {kerfInches minStock : ℚ} {sortedStock : List ℚ}
    {boards : List WorkingBoard} {cut : ℚ}
    (h : Phase2Inv kerfInches minStock boards) :
    Phase2Inv kerfInches minStock (placeNewStep kerfInches minStock sortedStock boards cut) := by
  unfold placeNewStep
  by_cases hskip : minStock < cut
  · rw [if_pos hskip]
    exact h
  · rw [if_neg hskip]
    push_neg at hskip
    cases hbf : bestFit kerfInches boards cut with
    | some p =>
        obtain ⟨i, r⟩ := p
        intro b hb
        rcases mem_pushCutAt hb with hmem | ⟨b₀, hb₀, rfl⟩
        · exact h b hmem
        · obtain ⟨b₁, hb₁, hfit⟩ := bestFit_canFit hbf
          rw [hb₀] at hb₁
          cases hb₁
          have hb₀mem : b₀ ∈ boards := by
            have := List.getElem?_eq_some.mp hb₀
            obtain ⟨hlt, hget⟩ := this
            exact hget ▸ List.getElem_mem hlt
          obtain ⟨_, _, hall⟩ := h b₀ hb₀mem
          refine ⟨feas_of_canFit hfit, by simp, ?_⟩
          intro c hc
          rcases List.mem_append.mp hc with hc1 | hc1
          · exact hall c hc1
          · rw [List.mem_singleton.mp hc1]
            exact hskip
    | none =>
        cases hfind : sortedStock.find? (fun stock => decide (cut ≤ stock)) with
        | none => exact h
        | some stockLength =>
            intro b hb
            rcases List.mem_append.mp hb with hmem | hmem
            · exact h b hmem
            · rw [List.mem_singleton.mp hmem]
              have hcs : cut ≤ stockLength := by
                have := List.find?_some hfind
                simpa using this
              refine ⟨by rw [usedLength_singleton]; exact hcs, by simp, ?_⟩
              intro c hc
              rw [List.mem_singleton.mp hc]
              exact hskip

/-- Every board produced by Phase 2 satisfies the invariant. -/
theorem placeCutsOntoNewBoards_inv (sortedCuts allowedLengths : List ℚ)
    (kerfInches : ℚ) (preferredMaxLengthInches : Option ℚ) :
    Phase2Inv kerfInches (minStockOf allowedLengths)
      (placeCutsOntoNewBoards sortedCuts allowedLengths kerfInches
        preferredMaxLengthInches) := by
  unfold placeCutsOntoNewBoards
  by_cases hguard : allowedLengths = [] ∨ sortedCuts = []
  · rw [if_pos hguard]
    intro b hb
    cases hb
  · rw [if_neg hguard]
    exact foldl_preserve (Phase2Inv kerfInches (minStockOf allowedLengths))
      _ sortedCuts [] (fun b hb => absurd hb (List.not_mem_nil b))
      (fun x y hx => placeNewStep_inv hx)

/-- Every board of the expanded scrap pool is empty with positive length. -/
theorem mem_scrapPoolOf {scrap : List ScrapBoard} {b : WorkingBoard}
    (hb : b ∈ scrapPoolOf scrap) : b.cuts = [] ∧ 0 < b.stockLength := by
  induction scrap with
  | nil => cases hb
  | cons s rest ih =>
      unfold scrapPoolOf at hb
      by_cases hv : 0 < s.stockLength ∧ 0 < s.quantity
      · rw [if_pos hv] at hb
        rcases List.mem_append.mp hb with hmem | hmem
        · rw [List.eq_of_mem_replicate hmem]
          exact ⟨rfl, hv.1⟩
        · exact ih hmem
      · rw [if_neg hv] at hb
        exact ih hb

/-! ## Shape of the optimizer output -/

/-- Every output board of `optimizeBoardCuts` is a frozen Phase-1 board
(tagged `scrap`) or a frozen Phase-2 board (tagged `new`). -/
theorem mem_optimizeBoardCuts_cases {requiredCuts : List RequiredCut}
    {spec : BoardSpec} {options : Option OptimizeCutsOptions}
    {b : OptimizedBoard} (hb : b ∈ optimizeBoardCuts requiredCuts spec options) :
    ∃ wb : WorkingBoard,
      (b = toOptimizedBoard wb .scrap spec.kerf ∧
        wb ∈ (placeCutsOntoBoards (sortDesc (cutsListOf requiredCuts))
          (scrapPoolOf ((options.bind (fun o => o.scrap)).getD []))
          spec.kerf).1) ∨
      (b = toOptimizedBoard wb .new spec.kerf ∧
        wb ∈ placeCutsOntoNewBoards
          (placeCutsOntoBoards (sortDesc (cutsListOf requiredCuts))
            (scrapPoolOf ((options.bind (fun o => o.scrap)).getD []))
            spec.kerf).2
          spec.allowedLengths spec.kerf
          (options.bind (fun o => o.preferredMaxLengthInches))) := by
  unfold optimizeBoardCuts at hb
  by_cases h1 : spec.allowedLengths = [] ∨ spec.kerf < 0
  · rw [if_pos h1] at hb
    cases hb
  · rw [if_neg h1] at hb
    simp only at hb
    by_cases h2 : cutsListOf requiredCuts = []
    · rw [if_pos h2] at hb
      cases hb
    · rw [if_neg h2] at hb
      rcases List.mem_append.mp hb with hmem | hmem
      · obtain ⟨wb, hwb, hEq⟩ := List.mem_map.mp hmem
        exact ⟨wb, Or.inl ⟨hEq.symm, hwb⟩⟩
      · obtain ⟨wb, hwb, hEq⟩ := List.mem_map.mp hmem
        exact ⟨wb, Or.inr ⟨hEq.symm, hwb⟩⟩

theorem toOptimizedBoard_cuts (wb : WorkingBoard) (s : Source) (k : ℚ) :
    (toOptimizedBoard wb s k).cuts = wb.cuts := rfl

theorem toOptimizedBoard_stockLength (wb : WorkingBoard) (s : Source) (k : ℚ) :
    (toOptimizedBoard wb s k).stockLength = wb.stockLength := rfl

theorem toOptimizedBoard_source (wb : WorkingBoard) (s : Source) (k : ℚ) :
    (toOptimizedBoard wb s k).source = s := rfl

theorem toOptimizedBoard_remainingWaste (wb : WorkingBoard) (s : Source) (k : ℚ) :
    (toOptimizedBoard wb s k).remainingWaste =
      max 0 (wb.stockLength - usedLength k wb.cuts) := rfl

theorem toOptimizedBoard_scrapRemaining (wb : WorkingBoard) (s : Source) (k : ℚ) :
    (toOptimizedBoard wb s k).scrapRemaining =
      (classifyRemaining (max 0 (wb.stockLength - usedLength k wb.cuts))).1 := rfl

theorem toOptimizedBoard_wasteRemaining (wb : WorkingBoard) (s : Source) (k : ℚ) :
    (toOptimizedBoard wb s k).wasteRemaining =
      (classifyRemaining (max 0 (wb.stockLength - usedLength k wb.cuts))).2 := rfl

/-! ## Claim C1: kerf feasibility of every output board -/

/-- C1.  Kerf feasibility invariant: for every input with `kerf ≥ 0` and
every board returned by `optimizeBoardCuts` (scrap or new), the sum of the
board's cuts plus kerf times `max 0 (number of cuts - 1)` is at most the
board's `stockLength`.  (The inequality is exact in `ℚ`, hence in
particular within the claim's 1e-6 tolerance.) -/
theorem kerf_feasibility_invariant (requiredCuts : List RequiredCut)
    (spec : BoardSpec) (options : Option OptimizeCutsOptions)
    (_hkerf : 0 ≤ spec.kerf) (b : OptimizedBoard)
    (hb : b ∈ optimizeBoardCuts requiredCuts spec options) :
    b.cuts.sum + spec.kerf * max 0 ((b.cuts.length : ℚ) - 1) ≤ b.stockLength := by
  obtain ⟨wb, ⟨rfl, hwb⟩ | ⟨rfl, hwb⟩⟩ := mem_optimizeBoardCuts_cases hb
  · rw [toOptimizedBoard_cuts, toOptimizedBoard_stockLength, ← usedLength_eq_max]
    refine placeCutsOntoBoards_feas ?_ wb hwb
    intro b₀ hb₀
    obtain ⟨hc, hpos⟩ := mem_scrapPoolOf hb₀
    rw [hc, usedLength_nil]
    exact le_of_lt hpos
  · rw [toOptimizedBoard_cuts, toOptimizedBoard_stockLength, ← usedLength_eq_max]
    exact (placeCutsOntoNewBoards_inv _ _ _ _ wb hwb).1

unseal Rat.add Rat.mul Rat.inv Rat.sub in
theorem kerf_feasibility_invariant_witness :
    (0 : ℚ) ≤ (1 / 8 : ℚ) ∧
    (⟨96, [50], 46, 46, 0, .new⟩ : OptimizedBoard) ∈
      optimizeBoardCuts [⟨50, 3⟩] ⟨[96], 1 / 8⟩ none ∧
    ([50] : List ℚ).sum + (1 / 8 : ℚ) * max 0 ((([50] : List ℚ).length : ℚ) - 1) ≤ 96 :=
  ⟨by norm_num, by decide,
    kerf_feasibility_invariant [⟨50, 3⟩] ⟨[96], 1 / 8⟩ none (by norm_num)
      ⟨96, [50], 46, 46, 0, .new⟩ (by decide)⟩

/-! ## Claim C9: no empty boards in the output -/

/-- C9 (implicit).  Every board returned by `optimizeBoardCuts` holds at
least one cut: scrap boards that received nothing are filtered out of the
result, and new boards are only opened together with their first cut. -/
theorem no_empty_boards (requiredCuts : List RequiredCut) (spec : BoardSpec)
    (options : Option OptimizeCutsOptions) (b : OptimizedBoard)
    (hb : b ∈ optimizeBoardCuts requiredCuts spec options) :
    b.cuts ≠ [] := by
  obtain ⟨wb, ⟨rfl, hwb⟩ | ⟨rfl, hwb⟩⟩ := mem_optimizeBoardCuts_cases hb
  · rw [toOptimizedBoard_cuts]
    exact placeCutsOntoBoards_nonempty wb hwb
  · rw [toOptimizedBoard_cuts]
    exact (placeCutsOntoNewBoards_inv _ _ _ _ wb hwb).2.1

unseal Rat.add Rat.mul Rat.inv Rat.sub in
theorem no_empty_boards_witness :
    (⟨96, [50], 46, 46, 0, .new⟩ : OptimizedBoard) ∈
      optimizeBoardCuts [⟨50, 3⟩] ⟨[96], 1 / 8⟩ none ∧
    ([50] : List ℚ) ≠ [] :=
  ⟨by decide,
    no_empty_boards [⟨50, 3⟩] ⟨[96], 1 / 8⟩ none
      ⟨96, [50], 46, 46, 0, .new⟩ (by decide)⟩

/-! ## Claim C6: fail-soft on an invalid catalog -/

/-- C6.  Fail-soft: for every requirement list and every options value,
`optimizeBoardCuts` returns the empty list whenever `allowedLengths` is
empty or `kerf` is negative.  (That it always returns a — possibly
empty — board list rather than signalling an error is built into the
embedding: `optimizeBoardCuts` is a total function into `List
OptimizedBoard`, exactly as the source has no `throw` path.) -/
theorem fail_soft_invalid_catalog (requiredCuts : List RequiredCut)
    (spec : BoardSpec) (options : Option OptimizeCutsOptions)
    (h : spec.allowedLengths = [] ∨ spec.kerf < 0) :
    optimizeBoardCuts requiredCuts spec options = [] := by
  unfold optimizeBoardCuts
  rw [if_pos h]

theorem fail_soft_invalid_catalog_witness :
    (([] : List ℚ) = [] ∨ (1 / 8 : ℚ) < 0) ∧
    optimizeBoardCuts [⟨50, 1⟩] ⟨[], 1 / 8⟩ none = [] :=
  ⟨Or.inl rfl,
    fail_soft_invalid_catalog [⟨50, 1⟩] ⟨[], 1 / 8⟩ none (Or.inl rfl)⟩

/-! ## Claim C4: the fixed 12-inch leftover threshold -/

/-- Helper: `classifyRemaining` follows the 12-inch threshold on
`r = max 0 (round1e6 x)`. -/
theorem classify_spec (x : ℚ) :
    (12 ≤ max 0 (round1e6 x) →
      (classifyRemaining x).1 = max 0 (round1e6 x) ∧ (classifyRemaining x).2 = 0) ∧
    (max 0 (round1e6 x) < 12 →
      (classifyRemaining x).1 = 0 ∧ (classifyRemaining x).2 = max 0 (round1e6 x)) := by
  simp only [classifyRemaining, MIN_SCRAP_LENGTH_INCHES]
  constructor
  · intro h
    rw [if_pos h]
    exact ⟨rfl, rfl⟩
  · intro h
    rw [if_neg (not_le.mpr h)]
    exact ⟨rfl, rfl⟩

unseal Rat.add Rat.mul Rat.inv Rat.sub in
/-- C4.  Leftover classification with the fixed threshold 12: for every
output board, with `r` the floored-at-zero 1e-6-rounded leftover, `r ≥ 12`
puts the whole leftover into `scrapRemaining` and `r < 12` puts it into
`wasteRemaining`; a computed leftover of exactly `12` classifies as scrap,
`11.999999` as waste.  The board-level statement quantifies over all
boards of the output, scrap-sourced and new-sourced alike, which is the
claim's "applies identically for both sources". -/
theorem leftover_threshold_12 :
    (∀ (requiredCuts : List RequiredCut) (spec : BoardSpec)
        (options : Option OptimizeCutsOptions) (b : OptimizedBoard),
      b ∈ optimizeBoardCuts requiredCuts spec options →
      ((12 ≤ max 0 (round1e6 b.remainingWaste) →
          b.scrapRemaining = max 0 (round1e6 b.remainingWaste) ∧
          b.wasteRemaining = 0) ∧
       (max 0 (round1e6 b.remainingWaste) < 12 →
          b.scrapRemaining = 0 ∧
          b.wasteRemaining = max 0 (round1e6 b.remainingWaste)))) ∧
    classifyRemaining 12 = (12, 0) ∧
    classifyRemaining (11999999 / 1000000) = (0, 11999999 / 1000000) := by
  refine ⟨?_, by decide, by decide⟩
  intro requiredCuts spec options b hb
  obtain ⟨wb, ⟨rfl, _⟩ | ⟨rfl, _⟩⟩ := mem_optimizeBoardCuts_cases hb
  all_goals
    rw [toOptimizedBoard_remainingWaste, toOptimizedBoard_scrapRemaining,
        toOptimizedBoard_wasteRemaining]
    exact classify_spec _

unseal Rat.add Rat.mul Rat.inv Rat.sub in
theorem leftover_threshold_12_witness :
    (⟨96, [50], 46, 46, 0, .new⟩ : OptimizedBoard) ∈
      optimizeBoardCuts [⟨50, 3⟩] ⟨[96], 1 / 8⟩ none ∧
    (46 : ℚ) = max 0 (round1e6 (46 : ℚ)) ∧ (0 : ℚ) = 0 :=
  ⟨by decide,
    (leftover_threshold_12.1 [⟨50, 3⟩] ⟨[96], 1 / 8⟩ none
      ⟨96, [50], 46, 46, 0, .new⟩ (by decide)).1 (by decide)⟩

/-! ## Claim C5: rounding of the reported lengths -/

theorem round1e6_nonneg {x : ℚ} (h : 0 ≤ x) : 0 ≤ round1e6 x := by
  unfold round1e6 jsRound
  have h1 : (0 : ℤ) ≤ Int.floor (x * 1000000 + 1 / 2) := by
    rw [Int.le_floor]
    push_cast
    nlinarith
  have h2 : (0 : ℚ) ≤ (Int.floor (x * 1000000 + 1 / 2) : ℚ) := by exact_mod_cast h1
  positivity

/-- Both classified leftovers are 1e-6-rounded values of non-negative
inputs (`0` itself being `round1e6 0`). -/
theorem classify_round (x : ℚ) (hx : 0 ≤ x) :
    (∃ y : ℚ, 0 ≤ y ∧ (classifyRemaining x).1 = round1e6 y) ∧
    (∃ y : ℚ, 0 ≤ y ∧ (classifyRemaining x).2 = round1e6 y) := by
  have hzero : round1e6 0 = 0 := by
    unfold round1e6 jsRound
    norm_num
  have hr : max 0 (round1e6 x) = round1e6 x := max_eq_right (round1e6_nonneg hx)
  simp only [classifyRemaining, MIN_SCRAP_LENGTH_INCHES, hr]
  by_cases h : (12 : ℚ) ≤ round1e6 x
  · rw [if_pos h]
    exact ⟨⟨x, hx, rfl⟩, ⟨0, le_refl 0, hzero.symm⟩⟩
  · rw [if_neg h]
    exact ⟨⟨0, le_refl 0, hzero.symm⟩, ⟨x, hx, rfl⟩⟩

/-- C5 (amended).  `scrapRemaining` and `wasteRemaining` are floored at
zero and 1e-6-rounded values of non-negative quantities; `remainingWaste`
is floored at zero and derived as
`stockLength - (sum(cuts) + kerf * max(0, len(cuts) - 1))`, but it is
reported **unrounded**. -/
theorem rounding_reported_amended (requiredCuts : List RequiredCut)
    (spec : BoardSpec) (options : Option OptimizeCutsOptions)
    (b : OptimizedBoard) (hb : b ∈ optimizeBoardCuts requiredCuts spec options) :
    b.remainingWaste =
      max 0 (b.stockLength -
        (b.cuts.sum + spec.kerf * max 0 ((b.cuts.length : ℚ) - 1))) ∧
    (∃ x : ℚ, 0 ≤ x ∧ b.scrapRemaining = round1e6 x) ∧
    (∃ x : ℚ, 0 ≤ x ∧ b.wasteRemaining = round1e6 x) := by
  obtain ⟨wb, ⟨rfl, _⟩ | ⟨rfl, _⟩⟩ := mem_optimizeBoardCuts_cases hb
  all_goals
    rw [toOptimizedBoard_remainingWaste, toOptimizedBoard_cuts,
        toOptimizedBoard_stockLength, toOptimizedBoard_scrapRemaining,
        toOptimizedBoard_wasteRemaining, ← usedLength_eq_max]
    exact ⟨rfl, (classify_round _ (le_max_left _ _)).1,
      (classify_round _ (le_max_left _ _)).2⟩

unseal Rat.add Rat.mul Rat.inv Rat.sub in
theorem rounding_reported_amended_witness :
    (⟨96, [50], 46, 46, 0, .new⟩ : OptimizedBoard) ∈
      optimizeBoardCuts [⟨50, 3⟩] ⟨[96], 1 / 8⟩ none ∧
    ((46 : ℚ) =
      max 0 (96 - (([50] : List ℚ).sum +
        (1 / 8 : ℚ) * max 0 ((([50] : List ℚ).length : ℚ) - 1))) ∧
    (∃ x : ℚ, 0 ≤ x ∧ (46 : ℚ) = round1e6 x) ∧
    (∃ x : ℚ, 0 ≤ x ∧ (0 : ℚ) = round1e6 x)) :=
  ⟨by decide,
    rounding_reported_amended [⟨50, 3⟩] ⟨[96], 1 / 8⟩ none
      ⟨96, [50], 46, 46, 0, .new⟩ (by decide)⟩

unseal Rat.add Rat.mul Rat.inv Rat.sub in
/-- C5 (counterexample to the claim as stated).  With
`kerf = 0.1234567`, one 96-inch new board carrying cuts `[10, 10]` reports
`remainingWaste = 75.8765433`, which is **not** `round(x * 1e6) / 1e6` of
any non-negative `x` (its value times `1e6` is not an integer), so
`remainingWaste` is not rounded to 1e-6 precision before being reported. -/
theorem rounding_reported_cex :
    (optimizeBoardCuts [⟨10, 2⟩] ⟨[96], 1234567 / 10000000⟩ none).map
      (fun b => b.remainingWaste) = [758765433 / 10000000] ∧
    ∀ x : ℚ, 0 ≤ x → (758765433 / 10000000 : ℚ) ≠ round1e6 x := by
  constructor
  · decide
  · intro x _ hEq
    have h1 : round1e6 x * 1000000 = ((jsRound (x * 1000000) : ℤ) : ℚ) := by
      unfold round1e6
      field_simp
    have h3 : ((758765433 / 10000000 : ℚ) * 1000000).den = 10 := by decide
    rw [hEq, h1] at h3
    rw [Rat.den_intCast] at h3
    exact absurd h3 (by norm_num)

/-! ## Claim C3: the Phase-2 minimum-stock quirk -/

unseal Rat.add Rat.mul Rat.inv Rat.sub in
/-- C3.  Phase-2 minimum-stock quirk: no `new`-sourced output board ever
carries a cut longer than the smallest element of `allowedLengths`
(`minStockOf`), even when a longer catalog length would fit it; in
particular Scenario D — `allowedLengths = [48, 96]`,
`requiredCuts = [{80, 1}]`, `kerf = 0.125`, no scrap — returns no board at
all for the 80-inch cut. -/
theorem phase2_min_stock_quirk :
    (∀ (requiredCuts : List RequiredCut) (spec : BoardSpec)
        (options : Option OptimizeCutsOptions) (b : OptimizedBoard),
      b ∈ optimizeBoardCuts requiredCuts spec options →
      b.source = Source.new →
      ∀ c ∈ b.cuts, c ≤ minStockOf spec.allowedLengths) ∧
    optimizeBoardCuts [⟨80, 1⟩] ⟨[48, 96], 1 / 8⟩ none = [] := by
  refine ⟨?_, by decide⟩
  intro requiredCuts spec options b hb hsource
  obtain ⟨wb, ⟨rfl, _⟩ | ⟨rfl, hwb⟩⟩ := mem_optimizeBoardCuts_cases hb
  · rw [toOptimizedBoard_source] at hsource
    cases hsource
  · rw [toOptimizedBoard_cuts]
    exact (placeCutsOntoNewBoards_inv _ _ _ _ wb hwb).2.2

unseal Rat.add Rat.mul Rat.inv Rat.sub in
theorem phase2_min_stock_quirk_witness :
    (⟨96, [50], 46, 46, 0, .new⟩ : OptimizedBoard) ∈
      optimizeBoardCuts [⟨50, 1⟩] ⟨[96], 0⟩ none ∧
    (50 : ℚ) ≤ minStockOf [96] :=
  ⟨by decide,
    phase2_min_stock_quirk.1 [⟨50, 1⟩] ⟨[96], 0⟩ none
      ⟨96, [50], 46, 46, 0, .new⟩ (by decide) rfl 50 (by decide)⟩

/-! ## Claim C2: scrap-first -/

unseal Rat.add Rat.mul Rat.inv Rat.sub in
/-- C2 (counterexample to the claim as stated).  With scrap boards of 12
and 10 inches, cuts `[8, 6, 4, 4]` and `kerf = 0`, the assignment
`[[8, 4], [6, 4]]` shows the scrap pool can hold every requested cut, yet
the greedy best-fit-descending Phase 1 places the 8 on the 10-inch board
(smaller remainder), strands the final 4, and the output contains a board
with `source = "new"`. -/
theorem scrap_first_cex :
    ScrapCanHold 0
      (scrapPoolOf [⟨"s", 12, 1⟩, ⟨"s", 10, 1⟩])
      (cutsListOf [⟨8, 1⟩, ⟨6, 1⟩, ⟨4, 2⟩]) ∧
    (optimizeBoardCuts [⟨8, 1⟩, ⟨6, 1⟩, ⟨4, 2⟩] ⟨[100], 0⟩
      (some ⟨some [⟨"s", 12, 1⟩, ⟨"s", 10, 1⟩], none⟩)).map
        (fun b => b.source) = [.scrap, .scrap, .new] := by
  constructor
  · refine ⟨[[8, 4], [6, 4]], by decide, by decide, ?_⟩
    intro p hp
    fin_cases hp <;> simp [usedLength] <;> norm_num
  · decide

/-- C2 (amended).  Scrap-first in the form the greedy code guarantees: if
the Phase-1 best-fit-descending pass places every requested cut onto the
scrap pool (no cut is left unassigned), then the result contains zero
boards with `source = "new"` — every output board is scrap-sourced. -/
theorem scrap_first_amended (requiredCuts : List RequiredCut)
    (spec : BoardSpec) (options : Option OptimizeCutsOptions)
    (h : (placeCutsOntoBoards (sortDesc (cutsListOf requiredCuts))
      (scrapPoolOf ((options.bind (fun o => o.scrap)).getD []))
      spec.kerf).2 = []) :
    ∀ b ∈ optimizeBoardCuts requiredCuts spec options,
      b.source = Source.scrap := by
  intro b hb
  obtain ⟨wb, ⟨rfl, _⟩ | ⟨rfl, hwb⟩⟩ := mem_optimizeBoardCuts_cases hb
  · rw [toOptimizedBoard_source]
  · rw [h] at hwb
    unfold placeCutsOntoNewBoards at hwb
    rw [if_pos (Or.inr rfl)] at hwb
    cases hwb

unseal Rat.add Rat.mul Rat.inv Rat.sub in
theorem scrap_first_amended_witness :
    (placeCutsOntoBoards (sortDesc (cutsListOf [⟨40, 1⟩]))
      (scrapPoolOf (((some (⟨some [⟨"s", 48, 1⟩], none⟩ : OptimizeCutsOptions)).bind
        (fun o => o.scrap)).getD []))
      (1 / 8 : ℚ)).2 = [] ∧
    (⟨48, [40], 8, 0, 8, .scrap⟩ : OptimizedBoard).source = Source.scrap :=
  ⟨by decide,
    scrap_first_amended [⟨40, 1⟩] ⟨[96], 1 / 8⟩
      (some ⟨some [⟨"s", 48, 1⟩], none⟩) (by decide)
      ⟨48, [40], 8, 0, 8, .scrap⟩ (by decide)⟩

/-! ## Order facts about the Phase-2 stock sort -/

theorem stockLe_refl (preferred : Option ℚ) (a : ℚ) :
    stockLe preferred a a = true := by
  simp [stockLe]

theorem stockLe_total {preferred : Option ℚ} {a b : ℚ}
    (h : ¬ stockLe preferred a b = true) : stockLe preferred b a = true := by
  simp only [stockLe, decide_eq_true_eq] at h ⊢
  push_neg at h
  obtain ⟨h1, h2⟩ := h
  rcases Nat.lt_or_ge (stockTier preferred b) (stockTier preferred a) with ht | ht
  · exact Or.inl ht
  · have heq : stockTier preferred b = stockTier preferred a := le_antisymm h1 ht
    exact Or.inr ⟨heq, le_of_lt (h2 heq.symm)⟩

theorem stockLe_trans {preferred : Option ℚ} {a b c : ℚ}
    (h1 : stockLe preferred a b = true) (h2 : stockLe preferred b c = true) :
    stockLe preferred a c = true := by
  simp only [stockLe, decide_eq_true_eq] at h1 h2 ⊢
  rcases h1 with h1 | ⟨h1, h1'⟩ <;> rcases h2 with h2 | ⟨h2, h2'⟩
  · exact Or.inl (h1.trans h2)
  · exact Or.inl (h2 ▸ h1)
  · exact Or.inl (h1 ▸ h2)
  · exact Or.inr ⟨h1.trans h2, h1'.trans h2'⟩

/-- The stock order refines the numeric order: a length in the preference
tier is at most the preferred maximum, which every out-of-tier length
exceeds. -/
theorem stockLe_le {preferred : Option ℚ} {a b : ℚ}
    (h : stockLe preferred a b = true) : a ≤ b := by
  simp only [stockLe, decide_eq_true_eq] at h
  rcases h with h | ⟨_, h⟩
  · cases preferred with
    | none => simp [stockTier] at h
    | some p =>
        simp only [stockTier] at h
        by_cases ha : a ≤ p
        · by_cases hb : b ≤ p
          · rw [if_pos ha, if_pos hb] at h
            omega
          · linarith [not_le.mp hb]
        · rw [if_neg ha] at h
          by_cases hb : b ≤ p
          · rw [if_pos hb] at h
            omega
          · rw [if_neg hb] at h
            omega
  · exact h

theorem insertStock_perm (preferred : Option ℚ) (c : ℚ) (l : List ℚ) :
    (insertStock preferred c l).Perm (c :: l) := by
  induction l with
  | nil => exact List.Perm.refl _
  | cons x xs ih =>
      unfold insertStock
      by_cases h : stockLe preferred c x = true
      · rw [if_pos h]
      · rw [if_neg h]
        exact (ih.cons x).trans (List.Perm.swap c x xs)

theorem sortStock_perm (preferred : Option ℚ) (l : List ℚ) :
    (sortStock preferred l).Perm l := by
  induction l with
  | nil => exact List.Perm.refl _
  | cons x xs ih =>
      exact (insertStock_perm preferred x (sortStock preferred xs)).trans (ih.cons x)

theorem insertStock_pairwise {preferred : Option ℚ} {c : ℚ} {l : List ℚ}
    (hl : l.Pairwise (fun a b => stockLe preferred a b = true)) :
    (insertStock preferred c l).Pairwise (fun a b => stockLe preferred a b = true) := by
  induction l with
  | nil => simp [insertStock]
  | cons x xs ih =>
      obtain ⟨hx, hxs⟩ := List.pairwise_cons.mp hl
      unfold insertStock
      by_cases h : stockLe preferred c x = true
      · rw [if_pos h]
        refine List.pairwise_cons.mpr ⟨?_, hl⟩
        intro y hy
        rcases List.mem_cons.mp hy with rfl | hy'
        · exact h
        · exact stockLe_trans h (hx y hy')
      · rw [if_neg h]
        refine List.pairwise_cons.mpr ⟨?_, ih hxs⟩
        intro y hy
        have hy' : y ∈ c :: xs := (insertStock_perm preferred c xs).mem_iff.mp hy
        rcases List.mem_cons.mp hy' with rfl | hy''
        · exact stockLe_total h
        · exact hx y hy''

theorem sortStock_pairwise (preferred : Option ℚ) (l : List ℚ) :
    (sortStock preferred l).Pairwise (fun a b => stockLe preferred a b = true) := by
  induction l with
  | nil => simp [sortStock]
  | cons x xs ih => exact insertStock_pairwise ih

/-- The Phase-2 stock sort is numerically ascending whatever the
preference is: everything above the preference tier exceeds everything
inside it, so the tiering never reorders values. -/
theorem sortStock_sorted_le (preferred : Option ℚ) (l : List ℚ) :
    (sortStock preferred l).Sorted (· ≤ ·) :=
  (sortStock_pairwise preferred l).imp (fun h => stockLe_le h)

/-- The sorted stock list does not depend on the preferred maximum at
all. -/
theorem sortStock_indep (p₁ p₂ : Option ℚ) (l : List ℚ) :
    sortStock p₁ l = sortStock p₂ l := by
  have hperm : (sortStock p₁ l).Perm (sortStock p₂ l) :=
    (sortStock_perm p₁ l).trans (sortStock_perm p₂ l).symm
  exact List.eq_of_perm_of_sorted hperm
    (sortStock_sorted_le p₁ l) (sortStock_sorted_le p₂ l)

/-- Helper: `find?` over a list sorted for a reflexive relation returns a minimal
element among those satisfying the predicate. -/
theorem find?_first_of_pairwise {α : Type} {r : α → α → Prop} {p : α → Bool}
    {l : List α} (hl : l.Pairwise r) (hrefl : ∀ a, r a a) {s : α}
    (hfind : l.find? p = some s) : ∀ t ∈ l, p t = true → r s t := by
  induction l with
  | nil => cases hfind
  | cons x xs ih =>
      obtain ⟨hx, hxs⟩ := List.pairwise_cons.mp hl
      by_cases hpx : p x = true
      · rw [List.find?_cons_of_pos _ hpx] at hfind
        cases hfind
        intro t ht _
        rcases List.mem_cons.mp ht with rfl | ht'
        · exact hrefl _
        · exact hx t ht'
      · rw [List.find?_cons_of_neg _ hpx] at hfind
        intro t ht hpt
        rcases List.mem_cons.mp ht with rfl | ht'
        · exact absurd hpt hpx
        · exact ih hxs hfind t ht' hpt

/-! ## Claim C8: the Phase-2 new-board selection rule -/

/-- C8.  When Phase 2 opens a new board for a still-unassigned cut — no
already-opened new board accepts it (`bestFit` is `none`) and the cut
passes the minimum-stock guard — the opened board's `stockLength` is the
first candidate of the preference-tiered order (lengths `≤ preferred`
before longer ones, each tier ascending, formalized by `stockLe`) among
the catalog lengths `≥ cut`, and the cut is placed as the board's first
and only item. -/
theorem phase2_new_board_rule (allowedLengths : List ℚ) (preferred : Option ℚ)
    (kerfInches : ℚ) (boards : List WorkingBoard) (cut s : ℚ)
    (hnofit : bestFit kerfInches boards cut = none)
    (hmin : ¬ minStockOf allowedLengths < cut)
    (hfind : (sortStock preferred allowedLengths).find?
      (fun stock => decide (cut ≤ stock)) = some s) :
    placeNewStep kerfInches (minStockOf allowedLengths)
        (sortStock preferred allowedLengths) boards cut =
      boards ++ [⟨s, [cut]⟩] ∧
    s ∈ allowedLengths ∧ cut ≤ s ∧
    ∀ t ∈ allowedLengths, cut ≤ t → stockLe preferred s t = true := by
  refine ⟨?_, ?_, ?_, ?_⟩
  · unfold placeNewStep
    rw [if_neg hmin, hnofit, hfind]
  · exact (sortStock_perm preferred allowedLengths).mem_iff.mp
      (List.mem_of_find?_eq_some hfind)
  · have := List.find?_some hfind
    simpa using this
  · intro t ht hct
    refine find?_first_of_pairwise (sortStock_pairwise preferred allowedLengths)
      (stockLe_refl preferred) hfind t ?_ (by simpa using hct)
    exact (sortStock_perm preferred allowedLengths).mem_iff.mpr ht

unseal Rat.add Rat.mul Rat.inv Rat.sub in
theorem phase2_new_board_rule_witness :
    placeNewStep 0 (minStockOf [48, 96]) (sortStock none [48, 96]) [] 40 =
      [] ++ [⟨48, [40]⟩] ∧
    (48 : ℚ) ∈ [(48 : ℚ), 96] ∧ (40 : ℚ) ≤ 48 ∧
    ∀ t ∈ [(48 : ℚ), 96], (40 : ℚ) ≤ t → stockLe none 48 t = true :=
  phase2_new_board_rule [48, 96] none 0 [] 40 48 (by decide) (by decide) (by decide)

/-! ## Claim C10: preferredMaxLengthInches never changes the result -/

theorem placeCutsOntoNewBoards_pref_irrel (sortedCuts allowedLengths : List ℚ)
    (kerfInches : ℚ) (p₁ p₂ : Option ℚ) :
    placeCutsOntoNewBoards sortedCuts allowedLengths kerfInches p₁ =
    placeCutsOntoNewBoards sortedCuts allowedLengths kerfInches p₂ := by
  unfold placeCutsOntoNewBoards
  rw [sortStock_indep p₁ p₂]

/-- C10 (implicit).  `preferredMaxLengthInches` has no effect: for any two
values (including `none`, the omitted case) the optimizer returns
identical board lists, because the preference tiering never changes the
sorted stock order — every length above the preference tier exceeds every
length inside it, so `sortStock` is plain ascending order either way. -/
theorem preferred_max_no_effect (requiredCuts : List RequiredCut)
    (spec : BoardSpec) (scrap : Option (List ScrapBoard)) (p₁ p₂ : Option ℚ) :
    optimizeBoardCuts requiredCuts spec (some ⟨scrap, p₁⟩) =
    optimizeBoardCuts requiredCuts spec (some ⟨scrap, p₂⟩) := by
  unfold optimizeBoardCuts
  by_cases h1 : spec.allowedLengths = [] ∨ spec.kerf < 0
  · rw [if_pos h1, if_pos h1]
  · rw [if_neg h1, if_neg h1]
    simp only
    by_cases h2 : cutsListOf requiredCuts = []
    · rw [if_pos h2, if_pos h2]
    · rw [if_neg h2, if_neg h2]
      rw [placeCutsOntoNewBoards_pref_irrel _ _ _
        ((some (⟨scrap, p₁⟩ : OptimizeCutsOptions)).bind
          (fun o => o.preferredMaxLengthInches))
        ((some (⟨scrap, p₂⟩ : OptimizeCutsOptions)).bind
          (fun o => o.preferredMaxLengthInches))]
      rfl

/-! ## Claim C7: idempotence of the requirement normalizer -/

/-- The grouping key of `mergeCuts`'s `Map`. -/
def entryKey (e : MergedEntry) : ℚ × MaterialType := (e.length, e.materialType)

/-- Entries that pass (and are preserved by) the normalizer's validation. -/
def ValidEntry (e : MergedEntry) : Prop := 0 < e.length ∧ 0 < e.quantity

/-- Pairwise-distinct grouping keys. -/
def DistinctKeys (l : List MergedEntry) : Prop :=
  l.Pairwise (fun a b => entryKey a ≠ entryKey b)

theorem mem_upsertCut {len : ℚ} {mt : MaterialType} {qty : ℤ}
    {l : List MergedEntry} {x : MergedEntry} (hx : x ∈ upsertCut len mt qty l) :
    (∃ y ∈ l, entryKey x = entryKey y) ∨ entryKey x = (len, mt) := by
  induction l with
  | nil =>
      rw [List.mem_singleton.mp hx]
      exact Or.inr rfl
  | cons e rest ih =>
      unfold upsertCut at hx
      by_cases hc : e.length = len ∧ e.materialType = mt
      · rw [if_pos hc] at hx
        rcases List.mem_cons.mp hx with rfl | hx'
        · exact Or.inl ⟨e, List.mem_cons_self e rest, rfl⟩
        · exact Or.inl ⟨x, List.mem_cons_of_mem e hx', rfl⟩
      · rw [if_neg hc] at hx
        rcases List.mem_cons.mp hx with rfl | hx'
        · exact Or.inl ⟨x, List.mem_cons_self x rest, rfl⟩
        · rcases ih hx' with ⟨y, hy, hk⟩ | hk
          · exact Or.inl ⟨y, List.mem_cons_of_mem e hy, hk⟩
          · exact Or.inr hk

theorem upsertCut_valid {len : ℚ} {mt : MaterialType} {qty : ℤ}
    {l : List MergedEntry} (h : ∀ e ∈ l, ValidEntry e)
    (hlen : 0 < len) (hqty : 0 < qty) :
    ∀ x ∈ upsertCut len mt qty l, ValidEntry x := by
  induction l with
  | nil =>
      intro x hx
      rw [List.mem_singleton.mp hx]
      exact ⟨hlen, hqty⟩
  | cons e rest ih =>
      intro x hx
      unfold upsertCut at hx
      by_cases hc : e.length = len ∧ e.materialType = mt
      · rw [if_pos hc] at hx
        rcases List.mem_cons.mp hx with rfl | hx'
        · obtain ⟨h1, h2⟩ := h e (List.mem_cons_self e rest)
          exact ⟨h1, add_pos h2 hqty⟩
        · exact h x (List.mem_cons_of_mem e hx')
      · rw [if_neg hc] at hx
        rcases List.mem_cons.mp hx with rfl | hx'
        · exact h x (List.mem_cons_self x rest)
        · exact ih (fun y hy => h y (List.mem_cons_of_mem e hy)) x hx'

theorem upsertCut_distinct {len : ℚ} {mt : MaterialType} {qty : ℤ}
    {l : List MergedEntry} (hd : DistinctKeys l) :
    DistinctKeys (upsertCut len mt qty l) := by
  induction l with
  | nil => simp [upsertCut, DistinctKeys]
  | cons e rest ih =>
      obtain ⟨he, hrest⟩ := List.pairwise_cons.mp hd
      unfold upsertCut
      by_cases hc : e.length = len ∧ e.materialType = mt
      · rw [if_pos hc]
        exact List.pairwise_cons.mpr ⟨fun y hy => he y hy, hrest⟩
      · rw [if_neg hc]
        refine List.pairwise_cons.mpr ⟨?_, ih hrest⟩
        intro x hx
        rcases mem_upsertCut hx with ⟨y, hy, hk⟩ | hk
        · rw [hk]
          exact he y hy
        · rw [hk]
          intro habs
          apply hc
          have := Prod.mk.injEq e.length e.materialType len mt ▸ habs
          exact ⟨congrArg Prod.fst habs, congrArg Prod.snd habs⟩

theorem upsertCut_append {len : ℚ} {mt : MaterialType} {qty : ℤ}
    {l : List MergedEntry}
    (h : ∀ e ∈ l, ¬(e.length = len ∧ e.materialType = mt)) :
    upsertCut len mt qty l = l ++ [⟨len, qty, mt⟩] := by
  induction l with
  | nil => rfl
  | cons e rest ih =>
      unfold upsertCut
      rw [if_neg (h e (List.mem_cons_self e rest))]
      rw [ih (fun y hy => h y (List.mem_cons_of_mem e hy))]
      rfl

theorem mergeGroups_valid_distinct :
    ∀ (l : List CutRequirement) (acc : List MergedEntry),
      DistinctKeys acc → (∀ e ∈ acc, ValidEntry e) →
      DistinctKeys (mergeGroups l acc) ∧
        ∀ e ∈ mergeGroups l acc, ValidEntry e := by
  intro l
  induction l with
  | nil => exact fun acc hd hv => ⟨hd, hv⟩
  | cons c rest ih =>
      intro acc hd hv
      unfold mergeGroups
      by_cases hc : (isValidLength c.length && isValidQuantity c.quantity) = true
      · rw [if_pos hc]
        simp only [Bool.and_eq_true, isValidLength, isValidQuantity,
          decide_eq_true_eq] at hc
        exact ih _ (upsertCut_distinct hd) (upsertCut_valid hv hc.1 hc.2)
      · rw [if_neg hc]
        exact ih acc hd hv

theorem mergeGroups_map_distinct :
    ∀ (es acc : List MergedEntry), DistinctKeys es →
      (∀ e ∈ es, ValidEntry e) →
      (∀ a ∈ acc, ∀ e ∈ es, entryKey a ≠ entryKey e) →
      mergeGroups
        (es.map (fun e => ⟨e.length, e.quantity, some e.materialType⟩)) acc =
        acc ++ es := by
  intro es
  induction es with
  | nil =>
      intro acc _ _ _
      simp [mergeGroups]
  | cons e rest ih =>
      intro acc hd hv hacc
      obtain ⟨hde, hdrest⟩ := List.pairwise_cons.mp hd
      obtain ⟨hve1, hve2⟩ := hv e (List.mem_cons_self e rest)
      simp only [List.map_cons]
      unfold mergeGroups
      rw [if_pos (by
        simp only [Bool.and_eq_true, isValidLength, isValidQuantity,
          decide_eq_true_eq]
        exact ⟨hve1, hve2⟩)]
      have hup : upsertCut e.length e.materialType e.quantity acc =
          acc ++ [⟨e.length, e.quantity, e.materialType⟩] := by
        refine upsertCut_append ?_
        intro a ha hak
        exact hacc a ha e (List.mem_cons_self e rest)
          (by simp [entryKey, hak.1, hak.2])
      have heta : (⟨e.length, e.quantity, e.materialType⟩ : MergedEntry) = e := rfl
      simp only [Option.getD_some, hup, heta]
      rw [ih (acc ++ [e]) hdrest
        (fun y hy => hv y (List.mem_cons_of_mem e hy)) ?_]
      · rw [List.append_assoc]
        rfl
      · intro a ha x hx
        rcases List.mem_append.mp ha with ha' | ha'
        · exact hacc a ha' x (List.mem_cons_of_mem e hx)
        · rw [List.mem_singleton.mp ha']
          exact hde x hx

theorem insertByLengthDesc_perm (c : MergedEntry) (l : List MergedEntry) :
    (insertByLengthDesc c l).Perm (c :: l) := by
  induction l with
  | nil => exact List.Perm.refl _
  | cons x xs ih =>
      unfold insertByLengthDesc
      by_cases h : c.length < x.length
      · rw [if_pos h]
        exact (ih.cons x).trans (List.Perm.swap c x xs)
      · rw [if_neg h]

theorem sortByLengthDesc_perm (l : List MergedEntry) :
    (sortByLengthDesc l).Perm l := by
  induction l with
  | nil => exact List.Perm.refl _
  | cons x xs ih =>
      exact (insertByLengthDesc_perm x (sortByLengthDesc xs)).trans (ih.cons x)

theorem insertByLengthDesc_pairwise {c : MergedEntry} {l : List MergedEntry}
    (hl : l.Pairwise (fun a b => b.length ≤ a.length)) :
    (insertByLengthDesc c l).Pairwise (fun a b => b.length ≤ a.length) := by
  induction l with
  | nil => simp [insertByLengthDesc]
  | cons x xs ih =>
      obtain ⟨hx, hxs⟩ := List.pairwise_cons.mp hl
      unfold insertByLengthDesc
      by_cases h : c.length < x.length
      · rw [if_pos h]
        refine List.pairwise_cons.mpr ⟨?_, ih hxs⟩
        intro y hy
        have hy' : y ∈ c :: xs := (insertByLengthDesc_perm c xs).mem_iff.mp hy
        rcases List.mem_cons.mp hy' with rfl | hy''
        · exact le_of_lt h
        · exact hx y hy''
      · rw [if_neg h]
        refine List.pairwise_cons.mpr ⟨?_, hl⟩
        intro y hy
        rcases List.mem_cons.mp hy with rfl | hy'
        · exact not_lt.mp h
        · exact (hx y hy').trans (not_lt.mp h)

theorem sortByLengthDesc_pairwise (l : List MergedEntry) :
    (sortByLengthDesc l).Pairwise (fun a b => b.length ≤ a.length) := by
  induction l with
  | nil => simp [sortByLengthDesc]
  | cons x xs ih => exact insertByLengthDesc_pairwise ih

/-- The stable descending sort is the identity on lists already sorted by
length descending. -/
theorem sortByLengthDesc_of_pairwise {l : List MergedEntry}
    (hl : l.Pairwise (fun a b => b.length ≤ a.length)) :
    sortByLengthDesc l = l := by
  induction l with
  | nil => rfl
  | cons x xs ih =>
      obtain ⟨hx, hxs⟩ := List.pairwise_cons.mp hl
      show insertByLengthDesc x (sortByLengthDesc xs) = x :: xs
      rw [ih hxs]
      cases xs with
      | nil => rfl
      | cons y ys =>
          unfold insertByLengthDesc
          rw [if_neg (not_lt.mpr (hx y (List.mem_cons_self y ys)))]

/-- C7.  Normalizer merge idempotence: `mergeCuts (mergeCuts l) =
mergeCuts l` for every requirement list — re-normalizing an
already-normalized list returns it unchanged. -/
theorem mergeCuts_idempotent (cuts : List CutRequirement) :
    mergeCuts (mergeCuts cuts) = mergeCuts cuts := by
  obtain ⟨hdist, hvalid⟩ :=
    mergeGroups_valid_distinct cuts [] List.Pairwise.nil (by intro e he; cases he)
  unfold mergeCuts
  have hperm : (sortByLengthDesc (mergeGroups cuts [])).Perm (mergeGroups cuts []) :=
    sortByLengthDesc_perm _
  have hdist' : DistinctKeys (sortByLengthDesc (mergeGroups cuts [])) :=
    (hperm.pairwise_iff (fun h heq => h heq.symm)).mpr hdist
  have hvalid' : ∀ e ∈ sortByLengthDesc (mergeGroups cuts []), ValidEntry e :=
    fun e he => hvalid e (hperm.mem_iff.mp he)
  rw [mergeGroups_map_distinct (sortByLengthDesc (mergeGroups cuts [])) []
    hdist' hvalid' (by intro a ha; cases ha)]
  rw [List.nil_append,
    sortByLengthDesc_of_pairwise (sortByLengthDesc_pairwise (mergeGroups cuts []))]

end OneLessBoard
